import Mathlib

/-!
Verification of the greedy value-estimation solver in `ndp/model.py`.

The cost tensors that the Python code manipulates are embedded as nested
lists of scalars (`Cost α`); the estimator table `Agent.value_networks` is
embedded as a list of functions from states to scalars (`NetTable α`).
Floating point arithmetic is idealised as exact arithmetic in an arbitrary
linearly ordered ring `α` (so ℤ, ℚ and ℝ are all instances); the claims
under study concern comparisons, index bookkeeping and list shapes, all of
which are unchanged by this idealisation.  Python exceptions (unpacking
`None`, `.item()` on an empty tensor, the `NameError` in `Agent.load`) are
embedded as `Option.none` / `none`-propagation, noted at each definition.
-/

/-- State of the solver: a stack of cost matrices, `state[i][j][k]` in the
Python code becomes `entry c i j k`.  A well-formed state of size `s` is
cubic: `s` matrices of `s` rows of `s` entries (`IsCubic`). -/
abbrev Cost (α : Type*) := List (List (List α))

/-- The estimator table `Agent.value_networks`: one scalar-valued estimator
per sub-problem size.  Each network's forward pass is treated as a black-box
function from a state to a scalar, exactly as the spec's §4.2 contract. -/
abbrev NetTable (α : Type*) := List (Cost α → α)

section Model

variable {α : Type*} [LinearOrderedRing α]

/-- Reading `cost[i, j, k]` from a state; out-of-range reads return a default
of `0` (the Python code only ever indexes in range on cubic states). -/
def entry (c : Cost α) (i j k : ℕ) : α :=
  ((c.getD i []).getD j []).getD k 0

/-- The state has shape `(s, s, s)`. -/
def IsCubic (c : Cost α) (s : ℕ) : Prop :=
  c.length = s ∧ ∀ m ∈ c, m.length = s ∧ ∀ r ∈ m, r.length = s

instance (c : Cost α) (s : ℕ) : Decidable (IsCubic c s) := by
  unfold IsCubic; infer_instance

/-- Every scalar entry stored in the state is nonnegative (true of every
state the default `UniformGenerator` produces, whose entries lie in `[0,1)`). -/
def NonnegCost (c : Cost α) : Prop :=
  ∀ m ∈ c, ∀ r ∈ m, ∀ x ∈ r, 0 ≤ x

instance (c : Cost α) : Decidable (NonnegCost c) := by
  unfold NonnegCost; infer_instance

/-- Looking up `self.value_networks[i]`.  The Python list raises `IndexError`
out of range; the claims below always carry a hypothesis keeping the index in
range, so the default estimator `fun _ => 0` is never consulted there. -/
def netAt (nets : NetTable α) (i : ℕ) : Cost α → α :=
  nets.getD i (fun _ => 0)

/-- `ClassicalValueEstimator.__call__` from `model.py` (de-batched): size 0
returns `0`, size 1 returns the single entry `costs[:, 0, 0, 0]`.  For
`n ≥ 2` the Python `__call__` falls through and returns `None`; that case is
never constructed by the program and is given the junk value `0` here. -/
def classicalValueEstimator (n : ℕ) (c : Cost α) : α :=
  if n = 0 then 0 else if n = 1 then entry c 0 0 0 else 0

/-- The table built by `Agent.__init__` before any pretraining:
`[ClassicalValueEstimator(n=0), ClassicalValueEstimator(n=1)]`. -/
def baseTable : NetTable α :=
  [classicalValueEstimator 0, classicalValueEstimator 1]

/-- The elimination `cost[1:][:, j_left][:, :, k_left]` shared by
`get_rewards` and `evaluate_position`: drop the leading row-block, then from
every remaining matrix drop row `j` and column `k`.  Keeping the indices
other than `j` (resp. `k`) is exactly `List.eraseIdx`. -/
def eliminate (c : Cost α) (j k : ℕ) : Cost α :=
  (c.drop 1).map (fun m => (m.eraseIdx j).map (fun row => row.eraseIdx k))

/-- The enumeration `itertools.product(range(size), repeat=2)`:
pairs `(j, k)` in increasing `j`, then increasing `k`. -/
def pairs (s : ℕ) : List (ℕ × ℕ) :=
  (List.range s).flatMap (fun j => (List.range s).map (fun k => (j, k)))

/-- One candidate value in `evaluate_position`:
`cost[0, j, k].item() + self.value_networks[size-1](cost_left...).item()`. -/
def rewardOf (nets : NetTable α) (c : Cost α) (jk : ℕ × ℕ) : α :=
  entry c 0 jk.1 jk.2 + netAt nets (c.length - 1) (eliminate c jk.1 jk.2)

/-- The loop body of the argmax in `evaluate_position`:
`if reward > best_reward: best_reward, best_pos = reward, (j, k)`. -/
def argmaxStep {β : Type*} (f : β → α) (acc : α × Option β) (x : β) : α × Option β :=
  if acc.1 < f x then (f x, some x) else acc

/-- The whole argmax loop of `evaluate_position`, started from the source's
initial accumulator `best_pos, best_reward = None, -1`. -/
def evalFold (nets : NetTable α) (c : Cost α) : α × Option (ℕ × ℕ) :=
  (pairs c.length).foldl (argmaxStep (rewardOf nets c)) (-1, none)

end Model

/-- Return shape of `Agent.evaluate_position`: the size-1 branch returns the
tuple `(value, (0, 0))` regardless of `return_best_move`, while the general
branch returns a bare scalar unless `return_best_move` is set. -/
inductive EvalResult (α : Type*) where
  | scalar (v : α)
  | pair (v : α) (a : Option (ℕ × ℕ))
deriving DecidableEq

section Model2

variable {α : Type*} [LinearOrderedRing α]

/-- `Agent.evaluate_position`.  The `cost.item()` of the size-1 branch is
embedded as the state's sole entry (`entry c 0 0 0`); on a non-cubic state of
outer length 1 the Python call would raise instead, a case no claim touches. -/
def evaluate_position (nets : NetTable α) (c : Cost α) (return_best_move : Bool) :
    EvalResult α :=
  if c.length = 1 then .pair (entry c 0 0 0) (some (0, 0))
  else if return_best_move then .pair (evalFold nets c).1 (evalFold nets c).2
  else .scalar (evalFold nets c).1

/-- The unpacking `_, best_action = self.evaluate_position(cost, return_best_move=True)`
performed by the rollout loop. -/
def bestMove (nets : NetTable α) (c : Cost α) : Option (ℕ × ℕ) :=
  match evaluate_position nets c true with
  | .pair _ a => a
  | .scalar _ => none

/-- The loop of `Agent.get_rewards`, by fuel (the wrapper passes the state's
size, and each `eliminate` shrinks the size by one, so the fuel never runs
out on a nonempty state).  A `none` bubbles up where the Python raises: when
`best_action` is `None` (the `j, k = best_action` unpacking), and on an empty
state (`cost.item()` on zero elements). -/
def getRewardsGo (nets : NetTable α) : ℕ → Cost α → Option (List α × List (Cost α))
  | 0, _ => none
  | fuel + 1, c =>
    if 1 < c.length then
      (bestMove nets c).bind (fun jk =>
        (getRewardsGo nets fuel (eliminate c jk.1 jk.2)).map
          (fun rp => (entry c 0 jk.1 jk.2 :: rp.1, c :: rp.2)))
    else some ([entry c 0 0 0], [c])

/-- `Agent.get_rewards(cost, return_positions=True)`: the reward list and the
recorded positions (the source appends the final size-1 state to `positions`
unconditionally, so the position list always holds one state per step). -/
def get_rewards_core (nets : NetTable α) (c : Cost α) : Option (List α × List (Cost α)) :=
  getRewardsGo nets c.length c

/-- `Agent.get_rewards(cost)` with the default `return_positions=False`. -/
def get_rewards (nets : NetTable α) (c : Cost α) : Option (List α) :=
  (get_rewards_core nets c).map (fun rp => rp.1)

/-- `Agent.act`: `sum(self.get_rewards(cost))`. -/
def act (nets : NetTable α) (c : Cost α) : Option α :=
  (get_rewards nets c).map (fun rs => rs.sum)

/-- One step `rewards[i - 1] += rewards[i]` of the fine-tuning scan. -/
def tsStep (rs : List α) (i : ℕ) : List α :=
  rs.set (i - 1) (rs.getD (i - 1) 0 + rs.getD i 0)

/-- The scan `for i in range(m, 0, -1): rewards[i-1] += rewards[i]`:
indices `m, m-1, ..., 1`, in that order. -/
def tsFrom (rs : List α) : ℕ → List α
  | 0 => rs
  | i + 1 => tsFrom (tsStep rs (i + 1)) i

/-- The in-place trailing-sum scan of `Agent.fine_tune`, whose loop bound is
`range(self.n - 2, 0, -1)` and which is applied to the rewards of a rollout
of a size-`n-1` instance. -/
def fineTuneScan (n : ℕ) (rs : List α) : List α :=
  tsFrom rs (n - 2)

/-- The prediction list accumulated by `Agent.fine_tune` for one rollout:
`[self.value_networks[self.n - i - 1](pos...) for i, pos in enumerate(positions)]`. -/
def finePreds (nets : NetTable α) (n : ℕ) (ps : List (Cost α)) : List α :=
  ps.enum.map (fun ip => netAt nets (n - ip.1 - 1) ip.2)

end Model2

/-- One entry of the estimator table as reconstructed by `Agent.load`. -/
inductive TableEntry where
  | classical (n : ℕ)
  | restored (n : ℕ)
deriving DecidableEq

/-- `Agent.load(n)`.  `cls()` builds the base agent (its constructor with the
default `n=2` trains nothing).  The loop `for i in range(2, n)` should then
append restored networks — but its first statement evaluates
`self.value_network_factory`, and `self` is unbound inside the classmethod,
so the first iteration raises `NameError`; hence for every `n > 2` the call
raises, embedded as `none`. -/
def loadAgent (n : ℕ) : Option (List TableEntry) :=
  if 2 < n then none
  else some [TableEntry.classical 0, TableEntry.classical 1]

/-- State threaded through a sequence of inference calls: the estimator
table owned by the agent. -/
structure AgentState (α : Type*) where
  nets : NetTable α

/-- An inference entry point together with its argument. -/
inductive InfCall (α : Type*) where
  | evalPos (c : Cost α) (b : Bool)
  | rewards (c : Cost α)
  | actOn (c : Cost α)

/-- The value returned by one inference call. -/
inductive InfResult (α : Type*) where
  | evalR (r : EvalResult α)
  | rewardsR (r : Option (List α))
  | actR (r : Option α)

section Model3

variable {α : Type*} [LinearOrderedRing α]

/-- Run one inference call.  `evaluate_position` is decorated
`@torch.no_grad()` and none of the three methods assigns to a parameter or
steps an optimizer, so each call returns the table it was given. -/
def runCall (st : AgentState α) : InfCall α → AgentState α × InfResult α
  | .evalPos c b => (st, .evalR (evaluate_position st.nets c b))
  | .rewards c => (st, .rewardsR (get_rewards st.nets c))
  | .actOn c => (st, .actR (act st.nets c))

/-- Run a sequence of inference calls, threading the agent state. -/
def runCalls (st : AgentState α) : List (InfCall α) → AgentState α × List (InfResult α)
  | [] => (st, [])
  | cl :: cls =>
    let s1 := runCall st cl
    let s2 := runCalls s1.1 cls
    (s2.1, s1.2 :: s2.2)

end Model3

/-! ### Concrete instances used by witnesses and counterexamples -/

/-- A concrete 2×2×2 state with every entry `-5`: a cost state reachable by
feeding the agent an all-negative instance. -/
def cNeg : Cost ℤ := [[[-5, -5], [-5, -5]], [[-5, -5], [-5, -5]]]

/-- A concrete 2×2×2 state with every entry `1` (all candidate pairs tie). -/
def cOnes : Cost ℤ := [[[1, 1], [1, 1]], [[1, 1], [1, 1]]]

/-- A concrete 2×2×2 state with distinct entries `0..7`. -/
def cSeq : Cost ℤ := [[[0, 1], [2, 3]], [[4, 5], [6, 7]]]

/-- A two-entry estimator table of zero estimators. -/
def zeroTable : NetTable ℤ := [fun _ => 0, fun _ => 0]

/-- A two-entry estimator table that agrees with `zeroTable` at index 1 on
all states of size 1 but differs everywhere else. -/
def altTable : NetTable ℤ := [fun _ => 5, fun d => if d.length = 1 then 0 else 7]

/-! ### Generic list helpers -/

section Helpers

variable {α : Type*} [LinearOrderedRing α]

theorem foldl_max_init_le (l : List α) (b : α) : b ≤ l.foldl max b := by
  induction l generalizing b with
  | nil => simp
  | cons x xs ih => exact le_trans (le_max_left b x) (ih (max b x))

theorem le_foldl_max_of_mem {l : List α} {x : α} (b : α) (hx : x ∈ l) :
    x ≤ l.foldl max b := by
  induction l generalizing b with
  | nil => cases hx
  | cons y ys ih =>
    rcases List.mem_cons.mp hx with h | h
    · subst h
      exact le_trans (le_max_right b x) (foldl_max_init_le ys (max b x))
    · exact ih (max b y) h

theorem foldl_max_le {l : List α} {b c : α} (hb : b ≤ c) (hl : ∀ x ∈ l, x ≤ c) :
    l.foldl max b ≤ c := by
  induction l generalizing b with
  | nil => simpa using hb
  | cons x xs ih =>
    exact ih (max_le hb (hl x (List.mem_cons_self x xs)))
      (fun y hy => hl y (List.mem_cons_of_mem x hy))

theorem argmax_fold_fst {β : Type*} (f : β → α) (l : List β) (b : α) (p : Option β) :
    (l.foldl (argmaxStep f) (b, p)).1 = (l.map f).foldl max b := by
  induction l generalizing b p with
  | nil => rfl
  | cons x xs ih =>
    simp only [List.foldl_cons, List.map_cons]
    by_cases h : b < f x
    · have hstep : argmaxStep f (b, p) x = (f x, some x) := by simp [argmaxStep, h]
      rw [hstep, ih, max_eq_right h.le]
    · have hstep : argmaxStep f (b, p) x = (b, p) := by simp [argmaxStep, h]
      rw [hstep, ih, max_eq_left (not_lt.mp h)]

theorem argmax_fold_const {β : Type*} (f : β → α) {l : List β} {b : α} (p : Option β)
    (h : ∀ x ∈ l, f x ≤ b) : l.foldl (argmaxStep f) (b, p) = (b, p) := by
  induction l with
  | nil => rfl
  | cons x xs ih =>
    have hx : ¬ b < f x := not_lt.mpr (h x (List.mem_cons_self x xs))
    have hstep : argmaxStep f (b, p) x = (b, p) := by simp [argmaxStep, hx]
    rw [List.foldl_cons, hstep]
    exact ih (fun y hy => h y (List.mem_cons_of_mem x hy))

theorem argmax_fold_keepSome {β : Type*} (f : β → α) (l : List β) (b : α) (y : β) :
    ∃ z, (l.foldl (argmaxStep f) (b, some y)).2 = some z := by
  induction l generalizing b y with
  | nil => exact ⟨y, rfl⟩
  | cons x xs ih =>
    rw [List.foldl_cons]
    by_cases h : b < f x
    · have hstep : argmaxStep f (b, some y) x = (f x, some x) := by simp [argmaxStep, h]
      rw [hstep]; exact ih (f x) x
    · have hstep : argmaxStep f (b, some y) x = (b, some y) := by simp [argmaxStep, h]
      rw [hstep]; exact ih b y

theorem argmax_fold_isSome {β : Type*} (f : β → α) {l : List β} {b : α} (p : Option β)
    (h : ∃ x ∈ l, b < f x) : ∃ z, (l.foldl (argmaxStep f) (b, p)).2 = some z := by
  induction l generalizing b p with
  | nil => obtain ⟨x, hx, _⟩ := h; cases hx
  | cons x xs ih =>
    rw [List.foldl_cons]
    by_cases hx : b < f x
    · have hstep : argmaxStep f (b, p) x = (f x, some x) := by simp [argmaxStep, hx]
      rw [hstep]; exact argmax_fold_keepSome f xs (f x) x
    · have hstep : argmaxStep f (b, p) x = (b, p) := by simp [argmaxStep, hx]
      rw [hstep]
      obtain ⟨x0, hx0, hbx0⟩ := h
      rcases List.mem_cons.mp hx0 with rfl | hmem
      · exact absurd hbx0 hx
      · exact ih p ⟨x0, hmem, hbx0⟩

theorem argmax_fold_find {β : Type*} (f : β → α) (l : List β) (b : α) (p : Option β)
    (M : α) (hM : M = (l.map f).foldl max b) (h : b < M) :
    (l.foldl (argmaxStep f) (b, p)).2 = l.find? (fun x => decide (f x = M)) := by
  induction l generalizing b p with
  | nil =>
    rw [List.map_nil, List.foldl_nil] at hM
    subst hM
    exact absurd h (lt_irrefl _)
  | cons x xs ih =>
    rw [List.map_cons, List.foldl_cons] at hM
    rw [List.foldl_cons]
    by_cases hx : b < f x
    · have hstep : argmaxStep f (b, p) x = (f x, some x) := by simp [argmaxStep, hx]
      rw [hstep]
      by_cases hfx : f x < M
      · have hM2 : M = (xs.map f).foldl max (f x) := by
          rw [hM, max_eq_right hx.le]
        rw [ih (f x) (some x) hM2 hfx, List.find?_cons_of_neg]
        simp [ne_of_lt hfx]
      · have hfxM : f x ≤ M := by
          rw [hM]
          exact le_trans (le_max_right b (f x)) (foldl_max_init_le _ _)
        have hMfx : M = f x := le_antisymm (not_lt.mp hfx) hfxM
        have hall : ∀ y ∈ xs, f y ≤ f x := by
          intro y hy
          have hmem : f y ≤ (xs.map f).foldl max (max b (f x)) :=
            le_foldl_max_of_mem _ (List.mem_map_of_mem f hy)
          rw [← hM, hMfx] at hmem
          exact hmem
        rw [argmax_fold_const f (some x) hall, List.find?_cons_of_pos]
        simp [hMfx]
    · have hstep : argmaxStep f (b, p) x = (b, p) := by simp [argmaxStep, hx]
      rw [hstep]
      have hM2 : M = (xs.map f).foldl max b := by
        rw [hM, max_eq_left (not_lt.mp hx)]
      rw [ih b p hM2 h, List.find?_cons_of_neg]
      have hlt : f x < M := lt_of_le_of_lt (not_lt.mp hx) h
      simp [ne_of_lt hlt]

end Helpers

theorem find?_first {β : Type*} {q : β → Bool} {l : List β} {a : β} (d : β)
    (h : l.find? q = some a) :
    ∃ i, i < l.length ∧ l.getD i d = a ∧ q a = true ∧
      ∀ i2, i2 < i → q (l.getD i2 d) = false := by
  induction l with
  | nil => simp [List.find?] at h
  | cons x xs ih =>
    by_cases hx : q x = true
    · rw [List.find?_cons_of_pos _ hx] at h
      have hxa : x = a := by injection h
      subst hxa
      exact ⟨0, by simp, by simp, hx, fun i2 hi2 => absurd hi2 (Nat.not_lt_zero _)⟩
    · rw [List.find?_cons_of_neg _ hx] at h
      obtain ⟨i, hi, hget, hqa, hbefore⟩ := ih h
      refine ⟨i + 1, by simpa using Nat.succ_lt_succ hi, by simpa using hget, hqa, ?_⟩
      intro i2 hi2
      cases i2 with
      | zero => simpa using hx
      | succ i3 => simpa using hbefore i3 (Nat.lt_of_succ_lt_succ hi2)

theorem getD_mem_or_default {β : Type*} (l : List β) (i : ℕ) (d : β) :
    l.getD i d ∈ l ∨ l.getD i d = d := by
  induction l generalizing i with
  | nil => right; simp
  | cons x xs ih =>
    cases i with
    | zero => left; simp
    | succ n =>
      rw [List.getD_cons_succ]
      rcases ih n with h | h
      · left; exact List.mem_cons_of_mem x h
      · right; exact h

theorem eraseIdx_getD {β : Type*} (l : List β) (i n : ℕ) (d : β) (h : i < l.length) :
    (l.eraseIdx i).getD n d = if n < i then l.getD n d else l.getD (n + 1) d := by
  induction l generalizing i n with
  | nil => simp at h
  | cons x xs ih =>
    cases i with
    | zero =>
      rw [List.eraseIdx_cons_zero, if_neg (Nat.not_lt_zero n), List.getD_cons_succ]
    | succ i0 =>
      rw [List.eraseIdx_cons_succ]
      cases n with
      | zero => rw [if_pos (Nat.succ_pos i0)]; simp
      | succ n0 =>
        rw [List.getD_cons_succ, ih i0 n0 (by simpa using Nat.lt_of_succ_lt_succ h)]
        simp [Nat.succ_lt_succ_iff, List.getD_cons_succ]

theorem map_getD_of_lt {β γ : Type*} (f : β → γ) (l : List β) (n : ℕ) (d1 : β) (d2 : γ)
    (h : n < l.length) : (l.map f).getD n d2 = f (l.getD n d1) := by
  rw [List.getD_eq_getElem?_getD, List.getD_eq_getElem?_getD, List.getElem?_map,
    List.getElem?_eq_getElem h]
  rfl

theorem drop_one_getD {β : Type*} (l : List β) (n : ℕ) (d : β) :
    (l.drop 1).getD n d = l.getD (n + 1) d := by
  rw [List.getD_eq_getElem?_getD, List.getD_eq_getElem?_getD, List.getElem?_drop,
    Nat.add_comm]

theorem set_getD_ne {β : Type*} (l : List β) (i t : ℕ) (a d : β) (h : t ≠ i) :
    (l.set i a).getD t d = l.getD t d := by
  rw [List.getD_eq_getElem?_getD, List.getD_eq_getElem?_getD, List.getElem?_set,
    if_neg (fun hh => h hh.symm)]

theorem set_getD_eq {β : Type*} (l : List β) (i : ℕ) (a d : β) (h : i < l.length) :
    (l.set i a).getD i d = a := by
  rw [List.getD_eq_getElem?_getD, List.getElem?_set, if_pos rfl, if_pos h]
  rfl

theorem eliminate_length {α : Type*} (c : Cost α) (j k : ℕ) :
    (eliminate c j k).length = c.length - 1 := by
  simp [eliminate]

theorem mem_pairs {s : ℕ} {jk : ℕ × ℕ} : jk ∈ pairs s ↔ jk.1 < s ∧ jk.2 < s := by
  cases jk with
  | mk j k => simp [pairs]

/-! ### Facts about `evaluate_position` -/

section EvalTheorems

variable {α : Type*} [LinearOrderedRing α]

/-- C7: for every 1×1×1 cost state, `evaluate_position` returns the single
contained scalar together with the action `(0, 0)`.  The estimator table is
universally quantified and does not occur in the right-hand side, so no
estimator from the table is consulted. -/
theorem evaluate_position_size_one (nets : NetTable α) (x : α) (b : Bool) :
    evaluate_position nets [[[x]]] b = EvalResult.pair x (some (0, 0)) := rfl

/-- C10: with `return_best_move=False` (the default), `evaluate_position`
returns a bare scalar on every cubic state of size ≥ 2, but the tuple
`(value, (0, 0))` on a state of size 1: the shape of the default-call result
depends on the input state's size. -/
theorem evaluate_position_default_shape (nets : NetTable α) {c : Cost α} {s : ℕ}
    (hc : IsCubic c s) :
    (s = 1 → evaluate_position nets c false = EvalResult.pair (entry c 0 0 0) (some (0, 0))) ∧
    (2 ≤ s → ∃ v, evaluate_position nets c false = EvalResult.scalar v) := by
  obtain ⟨hlen, -⟩ := hc
  subst hlen
  constructor
  · intro hs
    simp only [evaluate_position, if_pos hs]
  · intro hs
    have hne : c.length ≠ 1 := by omega
    exact ⟨(evalFold nets c).1, by simp only [evaluate_position, if_neg hne, Bool.false_eq_true,
      if_false]⟩

/-- C1 (amended): on a cubic state of size `s ≥ 2`, whenever the maximum of
`state[0,j,k] + nets[s-1](eliminated state)` over all pairs `(j,k)` exceeds
the `-1` the source initialises `best_reward` with, `evaluate_position`
returns that maximum as its value and an attaining pair as its action.
Without the `-1 < v` hypothesis the statement is false
(`evaluate_position_not_max` below). -/
theorem evaluate_position_max {nets : NetTable α} {c : Cost α} {s : ℕ} {v : α}
    (hc : IsCubic c s) (hs : 2 ≤ s) (hnets : s - 1 < nets.length)
    (hmem : v ∈ (pairs s).map (rewardOf nets c))
    (hmax : ∀ w ∈ (pairs s).map (rewardOf nets c), w ≤ v)
    (hv : -1 < v) :
    evaluate_position nets c false = EvalResult.scalar v ∧
    ∃ jk, evaluate_position nets c true = EvalResult.pair v (some jk) ∧
      jk ∈ pairs s ∧ rewardOf nets c jk = v := by
  obtain ⟨hlen, -⟩ := hc
  subst hlen
  have hval : (evalFold nets c).1 = v := by
    rw [evalFold, argmax_fold_fst]
    exact le_antisymm (foldl_max_le hv.le hmax) (le_foldl_max_of_mem _ hmem)
  have hMv : v = ((pairs c.length).map (rewardOf nets c)).foldl max (-1) := by
    rw [← hval]
    exact argmax_fold_fst _ _ _ _
  have hfind : (evalFold nets c).2 =
      (pairs c.length).find? (fun x => decide (rewardOf nets c x = v)) :=
    argmax_fold_find (rewardOf nets c) (pairs c.length) (-1) none v hMv hv
  obtain ⟨jk0, hjk0, hfjk0⟩ := List.mem_map.mp hmem
  have hne : c.length ≠ 1 := by omega
  refine ⟨by simp only [evaluate_position, if_neg hne, Bool.false_eq_true, if_false, hval], ?_⟩
  cases hfq : (pairs c.length).find? (fun x => decide (rewardOf nets c x = v)) with
  | none =>
    exfalso
    have hnone := List.find?_eq_none.mp hfq jk0 hjk0
    simp [hfjk0] at hnone
  | some y =>
    have hymem := List.mem_of_find?_eq_some hfq
    have hfy : rewardOf nets c y = v := by simpa using List.find?_some hfq
    refine ⟨y, ?_, hymem, hfy⟩
    have h2 : (evalFold nets c).2 = some y := by rw [hfind, hfq]
    simp only [evaluate_position, if_neg hne, if_pos rfl, hval, h2, if_true]

/-- C6 (amended): on a cubic state of size `s ≥ 2`, if two distinct pairs
attain the common best value `v` and `v` exceeds the `-1` sentinel, then the
action returned by `evaluate_position` is the earliest pair of the
`itertools.product` enumeration attaining `v`: it sits at some position `i`
of the enumeration, attains `v`, and every strictly earlier position does
not attain `v`.  Without `-1 < v` the statement is false
(`evaluate_position_not_tiebreak` below). -/
theorem evaluate_position_tiebreak {nets : NetTable α} {c : Cost α} {s : ℕ} {v : α}
    {p1 p2 : ℕ × ℕ}
    (hc : IsCubic c s) (hs : 2 ≤ s) (hnets : s - 1 < nets.length)
    (hp1 : p1 ∈ pairs s) (hp2 : p2 ∈ pairs s) (hne12 : p1 ≠ p2)
    (hf1 : rewardOf nets c p1 = v) (hf2 : rewardOf nets c p2 = v)
    (hmax : ∀ w ∈ (pairs s).map (rewardOf nets c), w ≤ v)
    (hv : -1 < v) :
    ∃ i, i < (pairs s).length ∧
      evaluate_position nets c true = EvalResult.pair v (some ((pairs s).getD i (0, 0))) ∧
      rewardOf nets c ((pairs s).getD i (0, 0)) = v ∧
      ∀ i2, i2 < i → rewardOf nets c ((pairs s).getD i2 (0, 0)) ≠ v := by
  obtain ⟨hlen, -⟩ := hc
  subst hlen
  have hmem : v ∈ (pairs c.length).map (rewardOf nets c) :=
    hf1 ▸ List.mem_map_of_mem _ hp1
  have hval : (evalFold nets c).1 = v := by
    rw [evalFold, argmax_fold_fst]
    exact le_antisymm (foldl_max_le hv.le hmax) (le_foldl_max_of_mem _ hmem)
  have hMv : v = ((pairs c.length).map (rewardOf nets c)).foldl max (-1) := by
    rw [← hval]
    exact argmax_fold_fst _ _ _ _
  have hfind : (evalFold nets c).2 =
      (pairs c.length).find? (fun x => decide (rewardOf nets c x = v)) :=
    argmax_fold_find (rewardOf nets c) (pairs c.length) (-1) none v hMv hv
  cases hfq : (pairs c.length).find? (fun x => decide (rewardOf nets c x = v)) with
  | none =>
    exfalso
    have hnone := List.find?_eq_none.mp hfq p1 hp1
    simp [hf1] at hnone
  | some y =>
    obtain ⟨i, hi, hget, hqy, hbefore⟩ := find?_first (0, 0) hfq
    refine ⟨i, hi, ?_, ?_, ?_⟩
    · have hne : c.length ≠ 1 := by omega
      have h2 : (evalFold nets c).2 = some y := by rw [hfind, hfq]
      rw [hget]
      simp only [evaluate_position, if_neg hne, if_pos rfl, hval, h2, if_true]
    · rw [hget]
      simpa using hqy
    · intro i2 hi2
      have := hbefore i2 hi2
      simpa using this

end EvalTheorems

/-! ### Facts about the rollout -/

theorem getD_mem_of_lt {β : Type*} (l : List β) (i : ℕ) (d : β) (h : i < l.length) :
    l.getD i d ∈ l := by
  rw [List.getD_eq_getElem l d h]
  exact List.getElem_mem h

section RolloutTheorems

variable {α : Type*} [LinearOrderedRing α]

theorem entry_nonneg {c : Cost α} (h : NonnegCost c) (i j k : ℕ) :
    0 ≤ entry c i j k := by
  unfold entry
  rcases getD_mem_or_default c i [] with hm | he
  · rcases getD_mem_or_default (c.getD i []) j [] with hm2 | he2
    · rcases getD_mem_or_default ((c.getD i []).getD j []) k 0 with hm3 | he3
      · exact h _ hm _ hm2 _ hm3
      · rw [he3]
    · rw [he2]; simp
  · rw [he]; simp

theorem eliminate_nonneg {c : Cost α} (h : NonnegCost c) (j k : ℕ) :
    NonnegCost (eliminate c j k) := by
  intro m hm r hr x hx
  simp only [eliminate, List.mem_map] at hm
  obtain ⟨m0, hm0, rfl⟩ := hm
  have hm0c : m0 ∈ c := List.mem_of_mem_drop hm0
  simp only [List.mem_map] at hr
  obtain ⟨r0, hr0, rfl⟩ := hr
  have hr0m : r0 ∈ m0 := List.eraseIdx_subset _ _ hr0
  have hxr : x ∈ r0 := List.eraseIdx_subset _ _ hx
  exact h m0 hm0c r0 hr0m x hxr

theorem bestMove_eq (nets : NetTable α) (c : Cost α) (h : c.length ≠ 1) :
    bestMove nets c = (evalFold nets c).2 := by
  simp only [bestMove, evaluate_position, if_neg h, if_pos rfl, if_true]

theorem bestMove_isSome {nets : NetTable α} {c : Cost α}
    (hc : 1 < c.length) (hnn : NonnegCost c) (hnets : ∀ i d, 0 ≤ netAt nets i d) :
    ∃ jk, bestMove nets c = some jk := by
  have himp : ∃ x ∈ pairs c.length, (-1 : α) < rewardOf nets c x := by
    refine ⟨(0, 0), mem_pairs.mpr ⟨by omega, by omega⟩, ?_⟩
    have h1 : (0 : α) ≤ entry c 0 0 0 := entry_nonneg hnn 0 0 0
    have h2 : (0 : α) ≤ netAt nets (c.length - 1) (eliminate c 0 0) := hnets _ _
    have h3 : (0 : α) ≤ rewardOf nets c (0, 0) := add_nonneg h1 h2
    exact lt_of_lt_of_le neg_one_lt_zero h3
  obtain ⟨z, hz⟩ := argmax_fold_isSome (rewardOf nets c) none himp
  exact ⟨z, by rw [bestMove_eq nets c (by omega)]; exact hz⟩

theorem getRewardsGo_spec (nets : NetTable α) :
    ∀ (fuel : ℕ) (c : Cost α) (rs : List α) (ps : List (Cost α)),
      fuel = c.length → getRewardsGo nets fuel c = some (rs, ps) →
      rs.length = c.length ∧ ps.length = c.length ∧
        ∀ i, i < ps.length → (ps.getD i []).length = c.length - i := by
  intro fuel
  induction fuel with
  | zero =>
    intro c rs ps hf h
    simp [getRewardsGo] at h
  | succ fuel ih =>
    intro c rs ps hf h
    simp only [getRewardsGo] at h
    by_cases hc : 1 < c.length
    · rw [if_pos hc] at h
      cases hbm : bestMove nets c with
      | none => rw [hbm] at h; simp at h
      | some jk =>
        rw [hbm, Option.some_bind] at h
        cases hrec : getRewardsGo nets fuel (eliminate c jk.1 jk.2) with
        | none => rw [hrec] at h; simp at h
        | some rp =>
          rw [hrec, Option.map_some'] at h
          have hpair := Option.some.inj h
          have hrs : entry c 0 jk.1 jk.2 :: rp.1 = rs := congrArg Prod.fst hpair
          have hps : c :: rp.2 = ps := congrArg Prod.snd hpair
          have hfl : fuel = (eliminate c jk.1 jk.2).length := by
            rw [eliminate_length]; omega
          obtain ⟨h1, h2, h3⟩ := ih _ rp.1 rp.2 hfl hrec
          rw [eliminate_length] at h1 h2 h3
          refine ⟨?_, ?_, ?_⟩
          · rw [← hrs]; simp only [List.length_cons, h1]; omega
          · rw [← hps]; simp only [List.length_cons, h2]; omega
          · intro i hi
            rw [← hps]
            cases i with
            | zero => simp
            | succ i0 =>
              rw [List.getD_cons_succ]
              have hi0 : i0 < rp.2.length := by
                rw [← hps] at hi
                simpa using hi
              have := h3 i0 hi0
              rw [this]
              omega
    · rw [if_neg hc] at h
      have hpair := Option.some.inj h
      have hrs : [entry c 0 0 0] = rs := congrArg Prod.fst hpair
      have hps : [c] = ps := congrArg Prod.snd hpair
      have hc1 : c.length = 1 := by omega
      refine ⟨by rw [← hrs]; simpa using hc1.symm,
        by rw [← hps]; simpa using hc1.symm, ?_⟩
      intro i hi
      rw [← hps] at hi ⊢
      have : i = 0 := by simpa using Nat.lt_one_iff.mp (by simpa using hi)
      subst this
      simpa using hc1.symm

theorem getRewardsGo_total {nets : NetTable α} (hnets : ∀ i d, 0 ≤ netAt nets i d) :
    ∀ (fuel : ℕ) (c : Cost α), fuel = c.length → 1 ≤ c.length → NonnegCost c →
      ∃ out, getRewardsGo nets fuel c = some out := by
  intro fuel
  induction fuel with
  | zero => intro c hf h1 _; omega
  | succ fuel ih =>
    intro c hf h1 hnn
    by_cases hc : 1 < c.length
    · obtain ⟨jk, hjk⟩ := bestMove_isSome hc hnn hnets
      obtain ⟨out, hout⟩ := ih (eliminate c jk.1 jk.2)
        (by rw [eliminate_length]; omega)
        (by rw [eliminate_length]; omega)
        (eliminate_nonneg hnn jk.1 jk.2)
      refine ⟨(entry c 0 jk.1 jk.2 :: out.1, c :: out.2), ?_⟩
      simp only [getRewardsGo, if_pos hc, hjk, Option.some_bind, hout, Option.map_some']
    · exact ⟨([entry c 0 0 0], [c]), by simp only [getRewardsGo, if_neg hc]⟩

/-- C2 (amended): on a cubic state of size `s ≥ 1`, provided the estimator
table has an entry for every size below `s` and all state entries and
estimator values are nonnegative (so that every lookahead beats the `-1`
sentinel and selects an action), `get_rewards` returns a reward sequence of
length exactly `s` and `act` returns its sum.  Without these nonnegativity
hypotheses the statement is false: the rollout can crash
(`get_rewards_crash` below). -/
theorem get_rewards_length_act {nets : NetTable α} {c : Cost α} {s : ℕ}
    (hc : IsCubic c s) (hs : 1 ≤ s) (hlen : s ≤ nets.length)
    (hnn : NonnegCost c) (hnets : ∀ i d, 0 ≤ netAt nets i d) :
    ∃ rs, get_rewards nets c = some rs ∧ rs.length = s ∧ act nets c = some rs.sum := by
  obtain ⟨hcl, -⟩ := hc
  subst hcl
  obtain ⟨out, hout⟩ := getRewardsGo_total hnets c.length c rfl hs hnn
  obtain ⟨h1, -, -⟩ := getRewardsGo_spec nets c.length c out.1 out.2 rfl hout
  refine ⟨out.1, ?_, h1, ?_⟩
  · simp only [get_rewards, get_rewards_core, hout, Option.map_some']
  · simp only [act, get_rewards, get_rewards_core, hout, Option.map_some']

/-- C3: the size/index invariant.  First part: the result of
`evaluate_position` on a state of size `s ≥ 2` depends on the estimator
table only through the entry at index `s - 1` evaluated on states of size
`s - 1` (each enumerated sub-state has that size by `eliminate_length`), so
a sub-state of size `s - 1` is only ever scored by estimator `s - 1`.
Second part: the predictions accumulated by `fine_tune` score every recorded
position with the estimator whose table index equals that position's own
size. -/
theorem estimator_size_index_invariant :
    (∀ (nets nets2 : NetTable α) (c : Cost α), 2 ≤ c.length →
      (∀ d : Cost α, d.length = c.length - 1 →
        netAt nets (c.length - 1) d = netAt nets2 (c.length - 1) d) →
      ∀ b, evaluate_position nets c b = evaluate_position nets2 c b) ∧
    (∀ (nets : NetTable α) (n : ℕ) (c : Cost α) (rs : List α) (ps : List (Cost α)),
      c.length = n - 1 → get_rewards_core nets c = some (rs, ps) →
      finePreds nets n ps = ps.map (fun pos => netAt nets pos.length pos)) := by
  constructor
  · intro nets nets2 c hs hagree b
    have hfeq : rewardOf nets c = rewardOf nets2 c := by
      funext jk
      simp only [rewardOf]
      rw [hagree _ (eliminate_length c jk.1 jk.2)]
    have hfold : evalFold nets c = evalFold nets2 c := by
      simp only [evalFold, hfeq]
    have hne : c.length ≠ 1 := by omega
    simp only [evaluate_position, if_neg hne, hfold]
  · intro nets n c rs ps hn hcore
    obtain ⟨-, hpl, hsz⟩ := getRewardsGo_spec nets c.length c rs ps rfl hcore
    apply List.ext_getElem
    · simp [finePreds]
    · intro i h1 h2
      have hip : i < ps.length := by simpa [finePreds] using h1
      have hienum : i < ps.enum.length := by simpa using hip
      simp only [finePreds, List.getElem_map, List.getElem_enum]
      have hidx : n - i - 1 = ps[i].length := by
        have := hsz i hip
        rw [List.getD_eq_getElem ps [] hip] at this
        omega
      rw [hidx]

end RolloutTheorems

/-! ### The trailing-sum scan of `fine_tune` -/

section ScanTheorems

variable {α : Type*} [LinearOrderedRing α]

theorem drop_sum_getD (rs : List α) (t : ℕ) (h : t < rs.length) :
    (rs.drop t).sum = rs.getD t 0 + (rs.drop (t + 1)).sum := by
  rw [List.drop_eq_getElem_cons h, List.sum_cons, List.getD_eq_getElem rs 0 h]

theorem tsFrom_spec (orig : List α) :
    ∀ (i : ℕ) (rs : List α), rs.length = orig.length → i ≤ orig.length →
      (∀ t, t < i → rs.getD t 0 = orig.getD t 0) →
      (∀ t, i ≤ t → rs.getD t 0 = (orig.drop t).sum) →
      (tsFrom rs i).length = orig.length ∧
        ∀ t, (tsFrom rs i).getD t 0 = (orig.drop t).sum := by
  intro i
  induction i with
  | zero =>
    intro rs hlen _ _ hsuf
    exact ⟨by simpa [tsFrom] using hlen, fun t => hsuf t (Nat.zero_le t)⟩
  | succ i ih =>
    intro rs hlen hle hfront hsuf
    have hi : i < orig.length := hle
    have hlen2 : (tsStep rs (i + 1)).length = orig.length := by
      simp [tsStep, hlen]
    have hfront2 : ∀ t, t < i → (tsStep rs (i + 1)).getD t 0 = orig.getD t 0 := by
      intro t ht
      simp only [tsStep, Nat.add_sub_cancel]
      rw [set_getD_ne _ _ _ _ _ (by omega)]
      exact hfront t (by omega)
    have hsuf2 : ∀ t, i ≤ t → (tsStep rs (i + 1)).getD t 0 = (orig.drop t).sum := by
      intro t ht
      by_cases het : t = i
      · subst het
        simp only [tsStep, Nat.add_sub_cancel]
        rw [set_getD_eq _ _ _ _ (by omega), hfront t (by omega), hsuf (t + 1) (by omega)]
        exact (drop_sum_getD orig t (by omega)).symm
      · simp only [tsStep, Nat.add_sub_cancel]
        rw [set_getD_ne _ _ _ _ _ het]
        exact hsuf t (by omega)
    have := ih (tsStep rs (i + 1)) hlen2 (by omega) hfront2 hsuf2
    simpa [tsFrom] using this

/-- C4: the in-place scan of `fine_tune`, applied to a reward list of length
`n - 1`, turns it into the trailing-sum sequence: afterwards element `i` is
the sum of the original elements from `i` to the end (in particular the last
element is unchanged), and `[a, b, c]` becomes `[a+b+c, b+c, c]`. -/
theorem fineTuneScan_correct :
    (∀ (n : ℕ) (rs : List α), rs.length = n - 1 →
      (fineTuneScan n rs).length = rs.length ∧
      (∀ i, (fineTuneScan n rs).getD i 0 = (rs.drop i).sum) ∧
      (fineTuneScan n rs).getD (rs.length - 1) 0 = rs.getD (rs.length - 1) 0) ∧
    (∀ a b c : α, fineTuneScan 4 [a, b, c] = [a + b + c, b + c, c]) := by
  have main : ∀ rs : List α,
      (tsFrom rs (rs.length - 1)).length = rs.length ∧
      ∀ t, (tsFrom rs (rs.length - 1)).getD t 0 = (rs.drop t).sum := by
    intro rs
    apply tsFrom_spec rs (rs.length - 1) rs rfl (by omega)
    · intro t ht; rfl
    · intro t ht
      rcases Nat.lt_or_ge t rs.length with h | h
      · have ht2 : t = rs.length - 1 := by omega
        subst ht2
        rw [drop_sum_getD rs _ h, List.drop_eq_nil_of_le (by omega), List.sum_nil, add_zero]
      · rw [List.getD_eq_default _ _ h, List.drop_eq_nil_of_le h, List.sum_nil]
  have hlast : ∀ rs : List α, (rs.drop (rs.length - 1)).sum = rs.getD (rs.length - 1) 0 := by
    intro rs
    rcases Nat.eq_zero_or_pos rs.length with h0 | hp
    · rw [List.length_eq_zero.mp h0]; simp
    · rw [drop_sum_getD rs _ (by omega), List.drop_eq_nil_of_le (by omega),
        List.sum_nil, add_zero]
  constructor
  · intro n rs hlen
    have hn : n - 2 = rs.length - 1 := by omega
    obtain ⟨h1, h2⟩ := main rs
    rw [fineTuneScan, hn]
    exact ⟨h1, h2, (h2 (rs.length - 1)).trans (hlast rs)⟩
  · intro a b c
    show tsFrom [a, b, c] 2 = _
    simp only [tsFrom, tsStep, List.getD_cons_succ, List.getD_cons_zero, Nat.add_sub_cancel,
      List.set_cons_succ, List.set_cons_zero, add_assoc]

end ScanTheorems

/-! ### The elimination step -/

section EliminationTheorems

variable {α : Type*} [LinearOrderedRing α]

/-- C8: on a cubic state of size `s ≥ 2` with chosen action `(j, k)` (both
in range), the elimination produces a state of size exactly `s - 1`, cubic of
size `s - 1`, and its entry at `(a, b, d)` is exactly the original entry at
row-block `a + 1`, row `b` skipping over the removed index `j`, and column
`d` skipping over the removed index `k`: all remaining entries are preserved
in their original order. -/
theorem eliminate_exact {c : Cost α} {s : ℕ} (hc : IsCubic c s) (hs : 2 ≤ s)
    {j k : ℕ} (hj : j < s) (hk : k < s) :
    (eliminate c j k).length = s - 1 ∧
    IsCubic (eliminate c j k) (s - 1) ∧
    ∀ a b d, a < s - 1 → b < s - 1 → d < s - 1 →
      entry (eliminate c j k) a b d =
        entry c (a + 1) (if b < j then b else b + 1) (if d < k then d else d + 1) := by
  obtain ⟨hlen, hcc⟩ := hc
  refine ⟨by rw [eliminate_length, hlen], ⟨by rw [eliminate_length, hlen], ?_⟩, ?_⟩
  · intro m hm
    simp only [eliminate, List.mem_map] at hm
    obtain ⟨m0, hm0, rfl⟩ := hm
    have hm0c : m0 ∈ c := List.mem_of_mem_drop hm0
    obtain ⟨hml, hmr⟩ := hcc m0 hm0c
    constructor
    · rw [List.length_map, List.length_eraseIdx, hml, if_pos hj]
    · intro r hr
      simp only [List.mem_map] at hr
      obtain ⟨r0, hr0, rfl⟩ := hr
      have hr0m : r0 ∈ m0 := List.eraseIdx_subset _ _ hr0
      rw [List.length_eraseIdx, hmr r0 hr0m, if_pos hk]
  · intro a b d ha hb hd
    simp only [entry, eliminate]
    rw [map_getD_of_lt _ _ _ [] _ (by simp only [List.length_drop]; omega), drop_one_getD]
    have hmc : c.getD (a + 1) [] ∈ c := getD_mem_of_lt c (a + 1) [] (by omega)
    obtain ⟨hml, hmr⟩ := hcc _ hmc
    rw [map_getD_of_lt _ _ _ [] _ (by rw [List.length_eraseIdx, hml, if_pos hj]; omega)]
    rw [eraseIdx_getD (c.getD (a + 1) []) j b [] (by rw [hml]; exact hj)]
    by_cases hbj : b < j
    · rw [if_pos hbj, if_pos hbj]
      have hrm : (c.getD (a + 1) []).getD b [] ∈ c.getD (a + 1) [] :=
        getD_mem_of_lt _ b [] (by omega)
      rw [eraseIdx_getD _ _ _ _ (by rw [hmr _ hrm]; exact hk)]
      by_cases hdk : d < k
      · rw [if_pos hdk, if_pos hdk]
      · rw [if_neg hdk, if_neg hdk]
    · rw [if_neg hbj, if_neg hbj]
      have hrm : (c.getD (a + 1) []).getD (b + 1) [] ∈ c.getD (a + 1) [] :=
        getD_mem_of_lt _ (b + 1) [] (by omega)
      rw [eraseIdx_getD _ _ _ _ (by rw [hmr _ hrm]; exact hk)]
      by_cases hdk : d < k
      · rw [if_pos hdk, if_pos hdk]
      · rw [if_neg hdk, if_neg hdk]

end EliminationTheorems

/-! ### Inference is parameter-frame-preserving, and `Agent.load` -/

section FrameTheorems

variable {α : Type*} [LinearOrderedRing α]

/-- C9: running any sequence of inference calls (`evaluate_position`,
`get_rewards`, `act`, in any order) returns the estimator table unchanged:
the three methods perform no parameter assignment and no optimizer step
(`evaluate_position` is even decorated `@torch.no_grad()`), which the
state-threaded embedding `runCalls` makes explicit. -/
theorem inference_preserves_table (st : AgentState α) (calls : List (InfCall α)) :
    (runCalls st calls).1 = st := by
  induction calls with
  | nil => rfl
  | cons cl cls ih => cases cl <;> simpa [runCalls, runCall] using ih

end FrameTheorems

/-- C5 is false of the code: `Agent.load(3)` (and any requested size above 2)
raises `NameError` on the first loop iteration because the classmethod body
references the undefined name `self`; the embedded `loadAgent` accordingly
returns `none` instead of a reconstructed table. -/
theorem loadAgent_raises : loadAgent 3 = none := rfl

/-! ### Witnesses and counterexamples at concrete inputs -/

/-- Helper for witnesses: every entry of `zeroTable` (and its out-of-range
default) is a nonnegative estimator. -/
theorem zeroTable_nonneg : ∀ (i : ℕ) (d : Cost ℤ), 0 ≤ netAt zeroTable i d := by
  intro i d
  simp only [netAt]
  rcases getD_mem_or_default zeroTable i (fun _ => 0) with h | h
  · rcases List.mem_cons.mp h with h1 | h1
    · rw [h1]
    · rw [List.mem_singleton.mp h1]
  · rw [h]

/-- Counterexample to C1 as literally stated: on the all-(-5) state of size
2 with the agent's own initial table (the two classical estimators), every
pair attains the maximal value -10, yet `evaluate_position` returns the
value -1 and the action `None`: neither the maximum nor an attaining pair. -/
theorem evaluate_position_not_max :
    evaluate_position (baseTable : NetTable ℤ) cNeg true = EvalResult.pair (-1) none ∧
    (-10 : ℤ) ∈ (pairs 2).map (rewardOf (baseTable : NetTable ℤ) cNeg) ∧
    ∀ w ∈ (pairs 2).map (rewardOf (baseTable : NetTable ℤ) cNeg), w ≤ -10 := by
  decide

/-- Witness for C1 (amended): on a concrete size-2 state whose candidate
values are 0, 1, 2, 3, the maximum 3 exceeds -1 and `evaluate_position`
returns it together with an attaining pair. -/
theorem evaluate_position_max_witness :
    evaluate_position zeroTable cSeq false = EvalResult.scalar 3 ∧
    ∃ jk, evaluate_position zeroTable cSeq true = EvalResult.pair 3 (some jk) ∧
      jk ∈ pairs 2 ∧ rewardOf zeroTable cSeq jk = 3 :=
  evaluate_position_max (by decide) (by decide) (by decide) (by decide) (by decide)
    (by decide)

/-- Counterexample to C6 as literally stated: on the all-(-5) state of size
2 with the agent's own initial table, the pairs (0,0) and (0,1) both attain
the common best value -10, yet the returned action is `None`, not the
earliest attaining pair of the enumeration. -/
theorem evaluate_position_not_tiebreak :
    evaluate_position (baseTable : NetTable ℤ) cNeg true = EvalResult.pair (-1) none ∧
    rewardOf (baseTable : NetTable ℤ) cNeg (0, 0) = -10 ∧
    rewardOf (baseTable : NetTable ℤ) cNeg (0, 1) = -10 ∧
    ∀ w ∈ (pairs 2).map (rewardOf (baseTable : NetTable ℤ) cNeg), w ≤ -10 := by
  decide

/-- Witness for C6 (amended): on the all-ones size-2 state with zero
estimators all four pairs tie at the value 1 > -1, and the returned action is
the pair at the earliest enumeration position attaining it. -/
theorem evaluate_position_tiebreak_witness :
    ∃ i, i < (pairs 2).length ∧
      evaluate_position zeroTable cOnes true
        = EvalResult.pair 1 (some ((pairs 2).getD i (0, 0))) ∧
      rewardOf zeroTable cOnes ((pairs 2).getD i (0, 0)) = 1 ∧
      ∀ i2, i2 < i → rewardOf zeroTable cOnes ((pairs 2).getD i2 (0, 0)) ≠ 1 :=
  @evaluate_position_tiebreak ℤ _ zeroTable cOnes 2 1 (0, 0) (0, 1)
    (by decide) (by decide) (by decide) (by decide) (by decide) (by decide)
    (by decide) (by decide) (by decide) (by decide)

/-- Counterexample to C2 as literally stated: on the all-(-5) state of size
2 with the agent's own initial table, every candidate value is -10 ≤ -1, so
`evaluate_position` returns action `None` and the rollout raises while
unpacking it (`none` in the embedding) instead of returning a length-2
reward sequence. -/
theorem get_rewards_crash :
    get_rewards (baseTable : NetTable ℤ) cNeg = none ∧
      act (baseTable : NetTable ℤ) cNeg = none := by
  decide

/-- Witness for C2 (amended): on the all-ones size-2 state with nonnegative
estimators the rollout succeeds, returns 2 rewards, and `act` is their sum. -/
theorem get_rewards_length_act_witness :
    ∃ rs, get_rewards zeroTable cOnes = some rs ∧ rs.length = 2 ∧
      act zeroTable cOnes = some rs.sum :=
  get_rewards_length_act (by decide) (by decide) (by decide) (by decide) zeroTable_nonneg

/-- Witness for C3: a table agreeing with `zeroTable` only at index 1 on
size-1 states yields identical `evaluate_position` results on a size-2
state, and on the concrete rollout of the all-ones state the fine-tuning
predictions score every recorded position by its own size's estimator. -/
theorem estimator_size_index_invariant_witness :
    (∀ b, evaluate_position zeroTable cOnes b = evaluate_position altTable cOnes b) ∧
    finePreds zeroTable 3 [cOnes, [[[1]]]] =
      [cOnes, [[[1]]]].map (fun pos => netAt zeroTable pos.length pos) := by
  constructor
  · exact estimator_size_index_invariant.1 zeroTable altTable cOnes (by decide)
      (fun d hd => by simp [netAt, zeroTable, altTable, cOnes, hd])
  · exact estimator_size_index_invariant.2 zeroTable 3 cOnes [1, 1] [cOnes, [[[1]]]]
      (by decide) (by decide)

/-- Witness for C4: the scan on the length-3 reward list `[1, 2, 3]` (with
`n = 4`) has length 3, its head is the total sum, and its last element is
unchanged. -/
theorem fineTuneScan_correct_witness :
    (fineTuneScan 4 [(1:ℤ), 2, 3]).length = 3 ∧
    (fineTuneScan 4 [(1:ℤ), 2, 3]).getD 0 0 = ([(1:ℤ), 2, 3].drop 0).sum ∧
    (fineTuneScan 4 [(1:ℤ), 2, 3]).getD 2 0 = [(1:ℤ), 2, 3].getD 2 0 := by
  obtain ⟨h1, h2, h3⟩ := fineTuneScan_correct.1 4 [(1:ℤ), 2, 3] (by decide)
  exact ⟨by simpa using h1, h2 0, by simpa using h3⟩

/-- Witness for C8: eliminating action (0, 1) from the size-2 state with
entries 0..7 yields the 1×1×1 state whose entries are exactly the surviving
original entries. -/
theorem eliminate_exact_witness :
    (eliminate cSeq 0 1).length = 1 ∧
    IsCubic (eliminate cSeq 0 1) 1 ∧
    ∀ a b d, a < 1 → b < 1 → d < 1 →
      entry (eliminate cSeq 0 1) a b d =
        entry cSeq (a + 1) (if b < 0 then b else b + 1) (if d < 1 then d else d + 1) :=
  @eliminate_exact ℤ _ cSeq 2 (by decide) (by decide) 0 1 (by decide) (by decide)

/-- Witness for C10: the default call returns the tuple shape on a 1×1×1
state and the bare-scalar shape on a 2×2×2 state. -/
theorem evaluate_position_default_shape_witness :
    (evaluate_position zeroTable [[[(5:ℤ)]]] false
        = EvalResult.pair (entry [[[(5:ℤ)]]] 0 0 0) (some (0, 0))) ∧
    ∃ v, evaluate_position zeroTable cOnes false = EvalResult.scalar v :=
  ⟨(evaluate_position_default_shape zeroTable (by decide : IsCubic [[[(5:ℤ)]]] 1)).1 rfl,
   (evaluate_position_default_shape zeroTable (by decide : IsCubic cOnes 2)).2 (by decide)⟩
